import Mathlib

/-!
Shallow embedding of the `serde_ext_duration` crate (src/lib.rs): a flexible
duration deserializer (integer seconds, float seconds, or unit-suffixed
strings) together with four serializers (human string, u64 seconds,
u64 milliseconds, f64 seconds with millisecond precision).

Machine integers are modelled as `Nat` with explicit bounds (`u64Max`,
`u128Max`) where the source performs checked arithmetic.  Strings are
modelled at the character level, which coincides with the source's byte
level on all ASCII inputs (and the tokenizer classifies every non-ASCII
byte/character the same way: not a digit, not alphabetic, not whitespace).
The parser loop is written with explicit fuel — the source's `while` loop
consumes at least one byte per iteration, so fuel `length + 1` always
suffices, as the lemmas below establish.
-/

set_option maxHeartbeats 1000000

deriving instance DecidableEq for Except

/-- The value `u64::MAX`. -/
def u64Max : Nat := 18446744073709551615

/-- The value `u128::MAX`. -/
def u128Max : Nat := 340282366920938463463374607431768211455

/-- Model of `std::time::Duration`: whole seconds (a `u64`, so `secs ≤ u64Max`) plus a
sub-second nanosecond remainder (`nanos < 10^9`).  The bounds are stated as
hypotheses on the theorems that need them. -/
structure Duration where
  secs : Nat
  nanos : Nat
deriving DecidableEq, Repr

/-- Constructor `Duration::from_secs`. -/
def Duration.fromSecs (n : Nat) : Duration := ⟨n, 0⟩

/-- Constructor `Duration::from_millis`. -/
def Duration.fromMillis (ms : Nat) : Duration := ⟨ms / 1000, ms % 1000 * 1000000⟩

/-- Visitor `visit_u64`: integer input is whole seconds (src/lib.rs lines 28-33). -/
def visit_u64 (v : Nat) : Except String Duration := .ok (Duration.fromSecs v)

/-- Visitor `visit_i64`: negative is rejected, otherwise whole seconds
(src/lib.rs lines 34-42). -/
def visit_i64 (v : Int) : Except String Duration :=
  if v < 0 then .error "negative duration not allowed"
  else .ok (Duration.fromSecs v.toNat)

/-- The rounded millisecond total
`(dur.as_secs() as u128) * 1000 + ((dur.subsec_nanos() as u128 + 500_000) / 1_000_000)`
shared by `serialize_millis` (line 107) and `to_human_string` (line 126). -/
def roundedMsTotal (dur : Duration) : Nat :=
  dur.secs * 1000 + (dur.nanos + 500000) / 1000000

/-- Serializer `serialize_secs`: emits `dur.as_secs()` (src/lib.rs lines 96-101). -/
def serialize_secs (dur : Duration) : Nat := dur.secs

/-- Serializer `serialize_millis` (src/lib.rs lines 103-112). -/
def serialize_millis (dur : Duration) : Except String Nat :=
  let msTotal := roundedMsTotal dur
  if u64Max < msTotal then .error "duration too large" else .ok msTotal

/-- Serializer `serialize_secs_f64_ms` (src/lib.rs lines 114-121), with the `f64`
arithmetic modelled exactly over `ℚ`: `f = as_secs + subsec_millis / 1000`
followed by `(f * 1000).round() / 1000` (`f64::round` is half-away-from-zero,
which on the non-negative values here is Mathlib's half-up `round`). -/
def serialize_secs_f64_ms (dur : Duration) : ℚ :=
  let f : ℚ := (dur.secs : ℚ) + ((dur.nanos / 1000000 : Nat) : ℚ) / 1000
  (round (f * 1000) : ℚ) / 1000

/-- Decimal digits of `n`, most significant first, built with explicit fuel
(one digit per fuel step; `n + 1` fuel always suffices).  This embeds the
decimal `Display` rendering the source relies on in `format!`. -/
def natDigsCore : Nat → Nat → List Char → List Char
  | 0, _, acc => acc
  | fuel + 1, n, acc =>
    if n < 10 then Nat.digitChar n :: acc
    else natDigsCore fuel (n / 10) (Nat.digitChar (n % 10) :: acc)

/-- Decimal representation of `n` as a character list (`"0"` for zero,
no leading zeros otherwise). -/
def natDigs (n : Nat) : List Char := natDigsCore (n + 1) n []

/-- Decimal representation of `n` as a string. -/
def natRepr (n : Nat) : String := String.mk (natDigs n)

/-- Numeric value of one ASCII digit character. -/
def digitVal (c : Char) : Nat := c.toNat - 48

/-- Value of a run of ASCII digit characters, as accumulated by
`str::parse::<u128>` (before its overflow check). -/
def natOfDigits (ds : List Char) : Nat :=
  ds.foldl (fun a c => a * 10 + digitVal c) 0

/-- An apostrophe, as a string. -/
def squote : String := String.mk ['\x27']

/-- Message of `format!("expected number at position {start_num}")`. -/
def expectedNumberMsg (pos : Nat) : String :=
  "expected number at position " ++ natRepr pos

/-- Message of `format!("invalid number at position {start_num}")`. -/
def invalidNumberMsg (pos : Nat) : String :=
  "invalid number at position " ++ natRepr pos

/-- Message of `format!("expected unit after number at position {}", start_num)`.
Note the source passes `start_num` here, the offset of the first digit. -/
def expectedUnitMsg (pos : Nat) : String :=
  "expected unit after number at position " ++ natRepr pos

/-- Message of `format!("unknown unit '{unit}' (use d, h, m, s, ms)")`. -/
def unknownUnitMsg (unit : List Char) : String :=
  "unknown unit " ++ squote ++ String.mk unit ++ squote ++ " (use d, h, m, s, ms)"

/-- Predicate `u8::is_ascii_whitespace`: space, tab, newline, form feed, carriage
return. -/
def isWsB (c : Char) : Bool :=
  c = ' ' || c = '\t' || c = '\n' || c = '\x0c' || c = '\r'

/-- The unit table of `parse_str` (src/lib.rs lines 269-276), matched on the
ASCII-lowercased unit token. -/
def msPerUnit : List Char → Option Nat
  | ['d'] => some 86400000
  | ['h'] => some 3600000
  | ['m', 's'] => some 1
  | ['m'] => some 60000
  | ['s'] => some 1000
  | _ => none

/-- The checks after the tokenizing loop of `parse_str`
(src/lib.rs lines 284-290). -/
def finishParse (total tc : Nat) : Except String Nat :=
  if tc = 0 then .error "empty duration string"
  else if u64Max < total then .error "duration too large"
  else .ok total

/-- The tokenizing loop of `parse_str` (src/lib.rs lines 243-283): skip
whitespace; stop at end of input; scan a non-empty digit run (value must fit
`u128`); skip whitespace; scan a non-empty alphabetic run; look the
lowercased unit up; checked-multiply and checked-add into the running
millisecond total; skip whitespace; repeat.  `pos` tracks the byte offset
`i`, `total` the running `total_ms`, `tc` the `token_count`. -/
def parseGo : Nat → List Char → Nat → Nat → Nat → Except String Nat
  | 0, _, _, _, _ => .error "out of fuel"
  | fuel + 1, l, pos, total, tc =>
    let w1 := (l.takeWhile isWsB).length
    let l1 := l.drop w1
    let p1 := pos + w1
    if l1 = [] then finishParse total tc
    else
      let ds := l1.takeWhile Char.isDigit
      let l2 := l1.drop ds.length
      if ds = [] then .error (expectedNumberMsg p1)
      else
        let n := natOfDigits ds
        if u128Max < n then .error (invalidNumberMsg p1)
        else
          let w2 := (l2.takeWhile isWsB).length
          let l3 := l2.drop w2
          let us := l3.takeWhile Char.isAlpha
          let l4 := l3.drop us.length
          if us = [] then .error (expectedUnitMsg p1)
          else
            match msPerUnit (us.map Char.toLower) with
            | none => .error (unknownUnitMsg (us.map Char.toLower))
            | some unitMs =>
              if u128Max < n * unitMs then .error "duration overflow"
              else if u128Max < total + n * unitMs then .error "duration overflow"
              else
                let w3 := (l4.takeWhile isWsB).length
                parseGo fuel (l4.drop w3) (p1 + ds.length + w2 + us.length + w3)
                  (total + n * unitMs) (tc + 1)

/-- Function `parse_str` (src/lib.rs lines 235-291). -/
def parse_str (s : String) : Except String Duration :=
  (parseGo (s.data.length + 1) s.data 0 0 0).map (fun t => Duration.fromMillis t)

/-- Join as in `Vec::join` with a single space: concatenate with a single space between elements. -/
def joinSpace : List (List Char) → List Char
  | [] => []
  | [p] => p
  | p :: ps => p ++ ' ' :: joinSpace ps

/-- Function `to_human_string` (src/lib.rs lines 124-165): round to the nearest
millisecond, return `"0s"` for zero, otherwise greedily split into
d/h/m/s/ms, push only the non-zero components, and join with spaces. -/
def to_human_string (dur : Duration) : String :=
  let msTotal := roundedMsTotal dur
  if msTotal = 0 then "0s"
  else
    let d := msTotal / 86400000
    let r1 := msTotal % 86400000
    let h := r1 / 3600000
    let r2 := r1 % 3600000
    let m := r2 / 60000
    let r3 := r2 % 60000
    let s := r3 / 1000
    let ms := r3 % 1000
    let parts : List (List Char) :=
      (if 0 < d then [natDigs d ++ ['d']] else []) ++
      (if 0 < h then [natDigs h ++ ['h']] else []) ++
      (if 0 < m then [natDigs m ++ ['m']] else []) ++
      (if 0 < s then [natDigs s ++ ['s']] else []) ++
      (if 0 < ms then [natDigs ms ++ ['m', 's']] else [])
    String.mk (joinSpace parts)

/-- Serializer `serialize_human` (src/lib.rs lines 89-94). -/
def serialize_human (dur : Duration) : String := to_human_string dur

/-- An already-decoded scalar input node handed to the visitor by the host
framework: a non-negative integer goes to `visit_u64`, a signed one to
`visit_i64`, a string to `visit_str`/`parse_str`. -/
inductive Value
  | uint (n : Nat)
  | int (i : Int)
  | str (s : String)
deriving DecidableEq

/-- The `deserialize` entry point's visitor dispatch (src/lib.rs lines 18-79)
on an already-decoded scalar node. -/
def deserializeValue : Value → Except String Duration
  | .uint n => visit_u64 n
  | .int i => visit_i64 i
  | .str s => parse_str s

/-- An output value node: string (human mode), u64 (secs/millis), or the
null/absent representation used by the optional variant. -/
inductive OutValue
  | str (s : String)
  | uint (n : Nat)
  | null
deriving DecidableEq

/-- Function `opt::serialize` (src/lib.rs lines 328-336): human string when present,
`serialize_none` when absent. -/
def optSerialize : Option Duration → OutValue
  | some d => .str (to_human_string d)
  | none => .null

/-- Function `opt::deserialize` (src/lib.rs lines 338-344): a null/absent node is
`None`; otherwise the ordinary flexible deserializer runs on the node. -/
def optDeserialize : Option Value → Except String (Option Duration)
  | none => .ok none
  | some v => (deserializeValue v).map some

/-- The five unit tokens of the grammar, in canonical lowercase form
(`d`, `h`, `m`, `s`, `ms`). -/
inductive TUnit
  | d | h | m | s | ms
deriving DecidableEq, Repr

/-- The character form of a unit token. -/
def TUnit.chars : TUnit → List Char
  | .d => ['d']
  | .h => ['h']
  | .m => ['m']
  | .s => ['s']
  | .ms => ['m', 's']

/-- Milliseconds per unit, as in the source's unit table. -/
def TUnit.msVal : TUnit → Nat
  | .d => 86400000
  | .h => 3600000
  | .m => 60000
  | .s => 1000
  | .ms => 1

/-- Canonical rendering of a (number, unit) token sequence: decimal digits
immediately followed by the unit token, with single spaces between
tokens — the shape `to_human_string` emits. -/
def renderToks (ts : List (Nat × TUnit)) : List Char :=
  joinSpace (ts.map fun t => natDigs t.1 ++ t.2.chars)

/-- Millisecond value of a token sequence. -/
def sumMs (ts : List (Nat × TUnit)) : Nat := (ts.map fun t => t.1 * t.2.msVal).sum

/-- The component sequence the human formatter pushes: only the non-zero
components, in the fixed order d, h, m, s, ms. -/
def humanToks (dd hh mm ss mms : Nat) : List (Nat × TUnit) :=
  (if 0 < dd then [(dd, TUnit.d)] else []) ++
  (if 0 < hh then [(hh, TUnit.h)] else []) ++
  (if 0 < mm then [(mm, TUnit.m)] else []) ++
  (if 0 < ss then [(ss, TUnit.s)] else []) ++
  (if 0 < mms then [(mms, TUnit.ms)] else [])

/-- The head of `l`, if there is one, fails the predicate `p` — the shape of
fact that stops a `takeWhile` scan. -/
def headNotP (p : Char → Bool) : List Char → Prop
  | [] => True
  | c :: _ => p c = false

/-! ### Character classes

The tokenizer's byte classes, characterized through code points so that the
disjointness facts the scanning lemmas need follow by `omega`. -/

theorem char_eq_iff {c d : Char} : c = d ↔ c.toNat = d.toNat :=
  ⟨fun h => h ▸ rfl, fun h => Char.eq_of_val_eq (UInt32.toNat.inj h)⟩

theorem char_isDigit_iff {c : Char} : c.isDigit = true ↔ 48 ≤ c.toNat ∧ c.toNat ≤ 57 := by
  simp only [Char.isDigit, Bool.and_eq_true, decide_eq_true_eq, ge_iff_le, UInt32.le_def,
    BitVec.le_def, Char.toNat]
  constructor
  · rintro ⟨h1, h2⟩; exact ⟨h1, h2⟩
  · rintro ⟨h1, h2⟩; exact ⟨h1, h2⟩

theorem char_isAlpha_iff {c : Char} :
    c.isAlpha = true ↔ (65 ≤ c.toNat ∧ c.toNat ≤ 90) ∨ (97 ≤ c.toNat ∧ c.toNat ≤ 122) := by
  simp only [Char.isAlpha, Char.isUpper, Char.isLower, Bool.or_eq_true, Bool.and_eq_true,
    decide_eq_true_eq, ge_iff_le, UInt32.le_def, BitVec.le_def, Char.toNat]
  constructor
  · rintro (⟨h1, h2⟩ | ⟨h1, h2⟩)
    · exact .inl ⟨h1, h2⟩
    · exact .inr ⟨h1, h2⟩
  · rintro (⟨h1, h2⟩ | ⟨h1, h2⟩)
    · exact .inl ⟨h1, h2⟩
    · exact .inr ⟨h1, h2⟩

theorem isWsB_iff {c : Char} :
    isWsB c = true ↔
      c.toNat = 32 ∨ c.toNat = 9 ∨ c.toNat = 10 ∨ c.toNat = 12 ∨ c.toNat = 13 := by
  simp only [isWsB, Bool.or_eq_true, decide_eq_true_eq, char_eq_iff]
  have h1 : (' ' : Char).toNat = 32 := by decide
  have h2 : ('\t' : Char).toNat = 9 := by decide
  have h3 : ('\n' : Char).toNat = 10 := by decide
  have h4 : ('\x0c' : Char).toNat = 12 := by decide
  have h5 : ('\r' : Char).toNat = 13 := by decide
  rw [h1, h2, h3, h4, h5]
  tauto

theorem isDigit_not_ws {c : Char} (h : c.isDigit = true) : isWsB c = false := by
  rw [char_isDigit_iff] at h
  by_contra hw
  rw [Bool.not_eq_false, isWsB_iff] at hw
  omega

theorem isDigit_not_alpha {c : Char} (h : c.isDigit = true) : c.isAlpha = false := by
  rw [char_isDigit_iff] at h
  by_contra hw
  rw [Bool.not_eq_false, char_isAlpha_iff] at hw
  omega

theorem isAlpha_not_ws {c : Char} (h : c.isAlpha = true) : isWsB c = false := by
  rw [char_isAlpha_iff] at h
  by_contra hw
  rw [Bool.not_eq_false, isWsB_iff] at hw
  omega

theorem isAlpha_not_digit {c : Char} (h : c.isAlpha = true) : c.isDigit = false := by
  rw [char_isAlpha_iff] at h
  by_contra hw
  rw [Bool.not_eq_false, char_isDigit_iff] at hw
  omega

theorem isWs_not_digit {c : Char} (h : isWsB c = true) : c.isDigit = false := by
  rw [isWsB_iff] at h
  by_contra hw
  rw [Bool.not_eq_false, char_isDigit_iff] at hw
  omega

theorem isWs_not_alpha {c : Char} (h : isWsB c = true) : c.isAlpha = false := by
  rw [isWsB_iff] at h
  by_contra hw
  rw [Bool.not_eq_false, char_isAlpha_iff] at hw
  omega

/-! ### Decimal digits

`natDigs` renders with fuel so the lemmas below follow the usual scheme:
the accumulator distributes as an append, fuel above the argument is
irrelevant, and then strong induction gives the read-back identity. -/

theorem digitChar_facts :
    ∀ k, k < 10 → (Nat.digitChar k).isDigit = true ∧ digitVal (Nat.digitChar k) = k := by
  decide

theorem natDigsCore_acc (fuel : Nat) :
    ∀ (n : Nat) (acc : List Char), natDigsCore fuel n acc = natDigsCore fuel n [] ++ acc := by
  induction fuel with
  | zero => intro n acc; simp [natDigsCore]
  | succ fuel ih =>
    intro n acc
    simp only [natDigsCore]
    by_cases h : n < 10
    · simp [h]
    · simp only [if_neg h]
      rw [ih (n / 10) (Nat.digitChar (n % 10) :: acc), ih (n / 10) [Nat.digitChar (n % 10)]]
      simp

theorem natDigsCore_fuel :
    ∀ (fuel₁ fuel₂ n : Nat) (acc : List Char), n < fuel₁ → n < fuel₂ →
      natDigsCore fuel₁ n acc = natDigsCore fuel₂ n acc := by
  intro fuel₁
  induction fuel₁ with
  | zero => intro fuel₂ n acc h1 _; omega
  | succ f₁ ih =>
    intro fuel₂ n acc h1 h2
    cases fuel₂ with
    | zero => omega
    | succ f₂ =>
      simp only [natDigsCore]
      by_cases h : n < 10
      · simp [h]
      · simp only [if_neg h]
        exact ih f₂ (n / 10) _ (by omega) (by omega)

theorem natDigs_lt {n : Nat} (h : n < 10) : natDigs n = [Nat.digitChar n] := by
  simp [natDigs, natDigsCore, h]

theorem natDigs_ge {n : Nat} (h : 10 ≤ n) :
    natDigs n = natDigs (n / 10) ++ [Nat.digitChar (n % 10)] := by
  show natDigsCore (n + 1) n [] = _
  simp only [natDigsCore, if_neg (by omega : ¬ n < 10)]
  rw [natDigsCore_acc, natDigsCore_fuel n (n / 10 + 1) (n / 10) [] (by omega) (by omega)]
  rfl

theorem natDigs_ne_nil (n : Nat) : natDigs n ≠ [] := by
  by_cases h : n < 10
  · rw [natDigs_lt h]; simp
  · rw [natDigs_ge (by omega)]; simp

theorem natDigs_all_digit : ∀ n, ∀ c ∈ natDigs n, c.isDigit = true := by
  intro n
  induction n using Nat.strong_induction_on with
  | _ n ih =>
    by_cases h : n < 10
    · rw [natDigs_lt h]
      intro c hc
      rw [List.mem_singleton] at hc
      subst hc
      exact (digitChar_facts n h).1
    · rw [natDigs_ge (by omega)]
      intro c hc
      rcases List.mem_append.mp hc with h1 | h2
      · exact ih (n / 10) (by omega) c h1
      · rw [List.mem_singleton] at h2
        subst h2
        exact (digitChar_facts (n % 10) (by omega)).1

theorem natOfDigits_append_singleton (xs : List Char) (c : Char) :
    natOfDigits (xs ++ [c]) = natOfDigits xs * 10 + digitVal c := by
  simp [natOfDigits, List.foldl_append]

theorem natOfDigits_natDigs : ∀ n, natOfDigits (natDigs n) = n := by
  intro n
  induction n using Nat.strong_induction_on with
  | _ n ih =>
    by_cases h : n < 10
    · rw [natDigs_lt h]
      show 0 * 10 + digitVal (Nat.digitChar n) = n
      rw [(digitChar_facts n h).2]
      omega
    · rw [natDigs_ge (by omega), natOfDigits_append_singleton, ih (n / 10) (by omega),
        (digitChar_facts (n % 10) (by omega)).2]
      omega

theorem headNotP_nil (p : Char → Bool) : headNotP p [] := trivial

theorem headNotP_cons {p : Char → Bool} {c : Char} {l : List Char} (h : p c = false) :
    headNotP p (c :: l) := h

theorem takeWhile_none {p : Char → Bool} {ys : List Char} (hhd : headNotP p ys) :
    ys.takeWhile p = [] := by
  cases ys with
  | nil => rfl
  | cons c l =>
    exact List.takeWhile_cons_of_neg (by simp only [headNotP] at hhd; simp [hhd])

theorem takeWhile_eats {p : Char → Bool} {xs ys : List Char} (hall : ∀ x ∈ xs, p x = true)
    (hhd : headNotP p ys) : (xs ++ ys).takeWhile p = xs := by
  rw [List.takeWhile_append_of_pos hall, takeWhile_none hhd, List.append_nil]

theorem drop_eats (xs ys : List Char) : (xs ++ ys).drop xs.length = ys :=
  List.drop_left xs ys

theorem headNotP_append_left {p : Char → Bool} {xs ys : List Char} (hne : xs ≠ [])
    (hall : ∀ x ∈ xs, p x = false) : headNotP p (xs ++ ys) := by
  cases xs with
  | nil => exact absurd rfl hne
  | cons c l => exact headNotP_cons (hall c (List.mem_cons_self c l))

theorem tunit_facts : ∀ u : TUnit, u.chars ≠ [] ∧ (∀ c ∈ u.chars, c.isAlpha = true) ∧
    u.chars.map Char.toLower = u.chars ∧ msPerUnit u.chars = some u.msVal ∧ 1 ≤ u.msVal := by
  intro u
  cases u <;> exact ⟨by decide, by decide, by decide, by decide, by decide⟩

theorem joinSpace_cons (p : List Char) (ps : List (List Char)) :
    joinSpace (p :: ps) = p ++ (if ps = [] then [] else ' ' :: joinSpace ps) := by
  cases ps with
  | nil => simp [joinSpace]
  | cons q qs => simp [joinSpace]

theorem renderToks_nil : renderToks [] = [] := rfl

theorem renderToks_cons (n : Nat) (u : TUnit) (ts : List (Nat × TUnit)) :
    renderToks ((n, u) :: ts) =
      natDigs n ++ u.chars ++ (if ts = [] then [] else ' ' :: renderToks ts) := by
  cases ts with
  | nil => simp [renderToks, joinSpace]
  | cons t ts' => simp [renderToks, joinSpace]

theorem sumMs_nil : sumMs [] = 0 := rfl

theorem sumMs_cons (n : Nat) (u : TUnit) (ts : List (Nat × TUnit)) :
    sumMs ((n, u) :: ts) = n * u.msVal + sumMs ts := by
  simp [sumMs]

/-- One iteration of the tokenizing loop on a rendered token followed by
arbitrary input whose head is not alphabetic: the digit run and the unit are
scanned exactly, and the loop either fails one of its three numeric checks
or continues after the token's trailing whitespace. -/
theorem parseGo_step (fuel : Nat) (n : Nat) (u : TUnit) (rest : List Char)
    (pos total tc : Nat) (hrest : headNotP Char.isAlpha rest) :
    parseGo (fuel + 1) (natDigs n ++ u.chars ++ rest) pos total tc =
      if u128Max < n then .error (invalidNumberMsg pos)
      else if u128Max < n * u.msVal then .error "duration overflow"
      else if u128Max < total + n * u.msVal then .error "duration overflow"
      else
        parseGo fuel (rest.drop (rest.takeWhile isWsB).length)
          (pos + (natDigs n).length + u.chars.length + (rest.takeWhile isWsB).length)
          (total + n * u.msVal) (tc + 1) := by
  have hdigs := natDigs_all_digit n
  have hne := natDigs_ne_nil n
  obtain ⟨hu1, hu2, hu3, hu4, hu5⟩ := tunit_facts u
  obtain ⟨uc, ucs, huc⟩ := List.exists_cons_of_ne_nil hu1
  have hualpha : uc.isAlpha = true := hu2 uc (by rw [huc]; exact List.mem_cons_self uc ucs)
  have e1 : (natDigs n ++ u.chars ++ rest).takeWhile isWsB = [] := by
    rw [List.append_assoc]
    exact takeWhile_none (headNotP_append_left hne fun c hc => isDigit_not_ws (hdigs c hc))
  have e2 : (natDigs n ++ u.chars ++ rest).takeWhile Char.isDigit = natDigs n := by
    rw [List.append_assoc]
    refine takeWhile_eats hdigs ?_
    rw [huc]
    exact headNotP_cons (isAlpha_not_digit hualpha)
  have e3 : (natDigs n ++ u.chars ++ rest).drop (natDigs n).length = u.chars ++ rest := by
    rw [List.append_assoc]
    exact drop_eats _ _
  have e4 : (u.chars ++ rest).takeWhile isWsB = [] := by
    rw [huc]
    exact takeWhile_none (headNotP_cons (isAlpha_not_ws hualpha))
  have e5 : (u.chars ++ rest).takeWhile Char.isAlpha = u.chars := takeWhile_eats hu2 hrest
  have e6 : (u.chars ++ rest).drop u.chars.length = rest := drop_eats _ _
  have hne2 : ¬ natDigs n ++ u.chars ++ rest = [] := by
    simp [List.append_eq_nil]
    intro h
    exact absurd h hne
  simp only [parseGo, e1, List.length_nil, List.drop_zero, Nat.add_zero, if_neg hne2, e2,
    if_neg hne, natOfDigits_natDigs, e3, e4, e5, e6, if_neg hu1, hu3, hu4]

/-- Length of a rendered cons: at least the digits and the unit. -/
theorem renderToks_cons_length (n : Nat) (u : TUnit) (ts : List (Nat × TUnit)) :
    (renderToks ((n, u) :: ts)).length =
      (natDigs n).length + u.chars.length +
        (if ts = [] then 0 else 1 + (renderToks ts).length) := by
  rw [renderToks_cons]
  by_cases h : ts = []
  · simp [h]
  · simp [h]
    omega

/-- The rendered tail after one token: its own leading-whitespace skip is the
single separator space, when the tail is non-empty. -/
theorem renderToks_sep_skip (ts : List (Nat × TUnit)) (hne : ts ≠ []) :
    ((' ' :: renderToks ts).takeWhile isWsB).length = 1 ∧
      (' ' :: renderToks ts).drop 1 = renderToks ts := by
  obtain ⟨⟨n, u⟩, ts', rfl⟩ := List.exists_cons_of_ne_nil hne
  constructor
  · rw [List.takeWhile_cons_of_pos (by decide), renderToks_cons]
    have hdigs := natDigs_all_digit n
    have hned := natDigs_ne_nil n
    rw [takeWhile_none]
    · rfl
    · rw [List.append_assoc]
      exact headNotP_append_left hned fun c hc => isDigit_not_ws (hdigs c hc)
  · rfl

/-- Success path of the loop on a rendered token sequence: when the final
total fits `u128`, every intermediate check passes and the loop ends in
`finishParse` with the accumulated sum and token count. -/
theorem parseGo_renderToks (ts : List (Nat × TUnit)) :
    ∀ fuel pos total tc, (renderToks ts).length < fuel →
      total + sumMs ts ≤ u128Max →
      parseGo fuel (renderToks ts) pos total tc =
        finishParse (total + sumMs ts) (tc + ts.length) := by
  induction ts with
  | nil =>
    intro fuel pos total tc hfuel _
    cases fuel with
    | zero => omega
    | succ f =>
      simp [renderToks_nil, parseGo, sumMs_nil, finishParse]
  | cons t ts ih =>
    obtain ⟨n, u⟩ := t
    intro fuel pos total tc hfuel hsum
    rw [sumMs_cons] at hsum ⊢
    obtain ⟨hu1, hu2, hu3, hu4, hu5⟩ := tunit_facts u
    have hterm : n ≤ n * u.msVal := Nat.le_mul_of_pos_right n (by omega)
    cases fuel with
    | zero =>
      rw [renderToks_cons_length] at hfuel
      omega
    | succ f =>
      rw [renderToks_cons]
      by_cases hts : ts = []
      · subst hts
        rw [if_pos rfl, parseGo_step f n u [] pos total tc trivial,
          if_neg (by omega), if_neg (by omega), if_neg (by omega)]
        have : (([] : List Char).takeWhile isWsB).length = 0 := rfl
        rw [this]
        cases f with
        | zero =>
          rw [renderToks_cons_length] at hfuel
          have := natDigs_ne_nil n
          have : (natDigs n).length ≠ 0 := by
            intro h
            exact this (List.eq_nil_of_length_eq_zero h)
          omega
        | succ f' =>
          show parseGo (f' + 1) (List.drop 0 []) _ _ _ = _
          simp [parseGo, sumMs_nil, finishParse]
      · rw [if_neg hts, parseGo_step f n u (' ' :: renderToks ts) pos total tc
          (headNotP_cons (by decide)), if_neg (by omega), if_neg (by omega), if_neg (by omega)]
        obtain ⟨hskip, hdrop⟩ := renderToks_sep_skip ts hts
        rw [hskip, hdrop, ih f _ (total + n * u.msVal) (tc + 1) ?_ (by omega)]
        · congr 1
          · omega
          · simp [List.length_cons]
            omega
        · rw [renderToks_cons_length, if_neg hts] at hfuel
          omega

theorem u64Max_lt_u128Max : u64Max < u128Max := by decide

/-- Error path of the loop on a rendered token sequence: when the final total
would exceed `u128`, some checked multiplication or addition (or the digit
parse) fails, so the loop returns an error. -/
theorem parseGo_renderToks_err (ts : List (Nat × TUnit)) :
    ∀ fuel pos total tc, (renderToks ts).length < fuel →
      u128Max < total + sumMs ts →
      ∃ e, parseGo fuel (renderToks ts) pos total tc = .error e := by
  induction ts with
  | nil =>
    intro fuel pos total tc hfuel hsum
    cases fuel with
    | zero => omega
    | succ f =>
      rw [sumMs_nil] at hsum
      have hlt : u64Max < total := by
        have := u64Max_lt_u128Max
        omega
      by_cases htc : tc = 0
      · exact ⟨"empty duration string", by simp [renderToks_nil, parseGo, finishParse, htc]⟩
      · exact ⟨"duration too large", by simp [renderToks_nil, parseGo, finishParse, htc, hlt]⟩
  | cons t ts ih =>
    obtain ⟨n, u⟩ := t
    intro fuel pos total tc hfuel hsum
    rw [sumMs_cons] at hsum
    cases fuel with
    | zero => omega
    | succ f =>
      rw [renderToks_cons]
      have hrest : headNotP Char.isAlpha (if ts = [] then [] else ' ' :: renderToks ts) := by
        by_cases hts : ts = []
        · rw [if_pos hts]
          trivial
        · rw [if_neg hts]
          exact headNotP_cons (by decide)
      rw [parseGo_step f n u _ pos total tc hrest]
      by_cases h1 : u128Max < n
      · exact ⟨invalidNumberMsg pos, by rw [if_pos h1]⟩
      · rw [if_neg h1]
        by_cases h2 : u128Max < n * u.msVal
        · exact ⟨"duration overflow", by rw [if_pos h2]⟩
        · rw [if_neg h2]
          by_cases h3 : u128Max < total + n * u.msVal
          · exact ⟨"duration overflow", by rw [if_pos h3]⟩
          · rw [if_neg h3]
            by_cases hts : ts = []
            · subst hts
              rw [sumMs_nil] at hsum
              omega
            · rw [if_neg hts]
              obtain ⟨hskip, hdrop⟩ := renderToks_sep_skip ts hts
              rw [hskip, hdrop]
              refine ih f _ (total + n * u.msVal) (tc + 1) ?_ (by omega)
              rw [renderToks_cons_length, if_neg hts] at hfuel
              omega

/-- Parsing a rendered token sequence succeeds exactly when the sequence is
non-empty and its millisecond value fits `u64`, and then the result is that
value. -/
theorem parse_renderToks_ok_iff (ts : List (Nat × TUnit)) (v : Duration) :
    parse_str (String.mk (renderToks ts)) = .ok v ↔
      ts ≠ [] ∧ sumMs ts ≤ u64Max ∧ v = Duration.fromMillis (sumMs ts) := by
  have hdata : (String.mk (renderToks ts)).data = renderToks ts := rfl
  unfold parse_str
  rw [hdata]
  by_cases hbig : u128Max < 0 + sumMs ts
  · obtain ⟨e, he⟩ := parseGo_renderToks_err ts ((renderToks ts).length + 1) 0 0 0
      (by omega) hbig
    rw [he]
    have hnot : ¬ (sumMs ts ≤ u64Max) := by
      have := u64Max_lt_u128Max
      omega
    constructor
    · intro h
      simp [Except.map] at h
    · rintro ⟨-, h2, -⟩
      exact absurd h2 hnot
  · rw [parseGo_renderToks ts ((renderToks ts).length + 1) 0 0 0 (by omega) (by omega),
      Nat.zero_add, Nat.zero_add]
    unfold finishParse
    by_cases hts : ts = []
    · subst hts
      simp [Except.map]
    · rw [if_neg (by simp [List.length_eq_zero, hts])]
      by_cases hover : u64Max < sumMs ts
      · rw [if_pos hover]
        simp [Except.map]
        omega
      · rw [if_neg hover]
        simp [Except.map, hts]
        constructor
        · intro h
          exact ⟨by omega, h.symm⟩
        · rintro ⟨-, h⟩
          exact h.symm

/-- A number token with no unit after it: the loop scans the leading
whitespace `w`, the digit run `ds`, the whitespace `w2`, and then finds zero
alphabetic characters at `r`, so it reports the number as invalid (when its
value exceeds `u128`) or the missing unit — both at offset `pos + w.length`,
the start of the digit run. -/
theorem parseGo_no_unit (w ds w2 r : List Char) (fuel pos total tc : Nat)
    (hw : ∀ c ∈ w, isWsB c = true)
    (hds : ds ≠ []) (hdig : ∀ c ∈ ds, c.isDigit = true)
    (hw2 : ∀ c ∈ w2, isWsB c = true)
    (hra : headNotP Char.isAlpha r) (hrw : headNotP isWsB r)
    (hrd : w2 = [] → headNotP Char.isDigit r) :
    parseGo (fuel + 1) (w ++ ds ++ w2 ++ r) pos total tc =
      if u128Max < natOfDigits ds then .error (invalidNumberMsg (pos + w.length))
      else .error (expectedUnitMsg (pos + w.length)) := by
  have hstop : headNotP Char.isDigit (w2 ++ r) := by
    cases w2 with
    | nil => exact hrd rfl
    | cons c cs => exact headNotP_cons (isWs_not_digit (hw2 c (List.mem_cons_self c cs)))
  have e1 : (w ++ (ds ++ (w2 ++ r))).takeWhile isWsB = w :=
    takeWhile_eats hw (headNotP_append_left hds fun c hc => isDigit_not_ws (hdig c hc))
  have e2 : (w ++ (ds ++ (w2 ++ r))).drop w.length = ds ++ (w2 ++ r) := drop_eats _ _
  have e3 : (ds ++ (w2 ++ r)).takeWhile Char.isDigit = ds := takeWhile_eats hdig hstop
  have e4 : (ds ++ (w2 ++ r)).drop ds.length = w2 ++ r := drop_eats _ _
  have e5 : (w2 ++ r).takeWhile isWsB = w2 := takeWhile_eats hw2 hrw
  have e6 : (w2 ++ r).drop w2.length = r := drop_eats _ _
  have e7 : r.takeWhile Char.isAlpha = [] := takeWhile_none hra
  have hne1 : ¬ (ds ++ (w2 ++ r)) = [] := by
    rw [List.append_eq_nil]
    rintro ⟨h, -⟩
    exact hds h
  simp only [List.append_assoc]
  simp only [parseGo, e1, e2, e3, e4, e5, e6, e7, if_neg hne1, if_neg hds]
  by_cases hnum : u128Max < natOfDigits ds
  · rw [if_pos hnum, if_pos hnum]
  · rw [if_neg hnum, if_neg hnum]
    simp

/-- The rounded total of `Duration::from_millis t` is `t` itself. -/
theorem roundedMsTotal_fromMillis (t : Nat) : roundedMsTotal (Duration.fromMillis t) = t := by
  simp only [roundedMsTotal, Duration.fromMillis]
  omega

theorem humanToks_map_render (dd hh mm ss mms : Nat) :
    (humanToks dd hh mm ss mms).map (fun t => natDigs t.1 ++ t.2.chars) =
      (if 0 < dd then [natDigs dd ++ ['d']] else []) ++
      (if 0 < hh then [natDigs hh ++ ['h']] else []) ++
      (if 0 < mm then [natDigs mm ++ ['m']] else []) ++
      (if 0 < ss then [natDigs ss ++ ['s']] else []) ++
      (if 0 < mms then [natDigs mms ++ ['m', 's']] else []) := by
  simp only [humanToks]
  split_ifs <;> simp [TUnit.chars]

theorem sumMs_humanToks (dd hh mm ss mms : Nat) :
    sumMs (humanToks dd hh mm ss mms) =
      dd * 86400000 + hh * 3600000 + mm * 60000 + ss * 1000 + mms := by
  simp only [humanToks, sumMs, List.map_append, List.sum_append]
  split_ifs <;> simp [TUnit.msVal] <;> omega

theorem humanToks_pos (dd hh mm ss mms : Nat) :
    ∀ p ∈ humanToks dd hh mm ss mms, 0 < p.1 := by
  intro p hp
  simp only [humanToks, List.mem_append] at hp
  have hx : ∀ (k : Nat) (u : TUnit), p ∈ (if 0 < k then [(k, u)] else []) → 0 < p.1 := by
    intro k u h
    split_ifs at h with hc
    · rw [List.mem_singleton] at h
      subst h
      exact hc
    · simp at h
  rcases hp with ((((h | h) | h) | h) | h)
  · exact hx dd TUnit.d h
  · exact hx hh TUnit.h h
  · exact hx mm TUnit.m h
  · exact hx ss TUnit.s h
  · exact hx mms TUnit.ms h

theorem humanToks_eq_nil_iff (dd hh mm ss mms : Nat) :
    humanToks dd hh mm ss mms = [] ↔
      dd = 0 ∧ hh = 0 ∧ mm = 0 ∧ ss = 0 ∧ mms = 0 := by
  simp only [humanToks, List.append_eq_nil]
  split_ifs <;> simp_all <;> omega

/-- For a non-zero rounded total, `to_human_string` is exactly the canonical
rendering of its non-zero greedy components. -/
theorem to_human_string_eq (d : Duration) (h : roundedMsTotal d ≠ 0) :
    to_human_string d = String.mk (renderToks (humanToks
      (roundedMsTotal d / 86400000)
      (roundedMsTotal d % 86400000 / 3600000)
      (roundedMsTotal d % 86400000 % 3600000 / 60000)
      (roundedMsTotal d % 86400000 % 3600000 % 60000 / 1000)
      (roundedMsTotal d % 86400000 % 3600000 % 60000 % 1000))) := by
  simp only [to_human_string, renderToks, if_neg h, humanToks_map_render]

/-! ### Claims -/

/-- Claim C8: a non-negative integer input parses to exactly that many whole
seconds (for both the unsigned and the signed visitor), the secs serializer
returns it unchanged, and the secs serializer truncates (does not round) the
sub-second remainder: a 1234 ms duration serializes as 1. -/
theorem secs_roundtrip :
    (∀ n : Nat, visit_u64 n = .ok (Duration.fromSecs n) ∧
      serialize_secs (Duration.fromSecs n) = n) ∧
    (∀ i : Int, 0 ≤ i → visit_i64 i = .ok (Duration.fromSecs i.toNat) ∧
      serialize_secs (Duration.fromSecs i.toNat) = i.toNat) ∧
    serialize_secs (Duration.fromMillis 1234) = 1 := by
  refine ⟨fun n => ⟨rfl, rfl⟩, fun i hi => ⟨?_, rfl⟩, by decide⟩
  rw [visit_i64, if_neg (by omega)]

theorem secs_roundtrip_witness :
    visit_i64 5 = .ok (Duration.fromSecs (5 : Int).toNat) :=
  (secs_roundtrip.2.1 5 (by decide)).1

/-- Claim C9: the optional variant preserves presence: a null/absent node
deserializes to no value, no value serializes to the null representation
(never the string `"0s"`), and a present value goes through the ordinary
parser and the underlying human formatter. -/
theorem opt_presence :
    optDeserialize none = .ok none ∧
    optSerialize none = .null ∧
    optSerialize none ≠ .str "0s" ∧
    (∀ v d, deserializeValue v = .ok d → optDeserialize (some v) = .ok (some d)) ∧
    (∀ d, optSerialize (some d) = .str (serialize_human d)) := by
  refine ⟨rfl, rfl, by simp [optSerialize], fun v d h => ?_, fun d => rfl⟩
  simp [optDeserialize, h, Except.map]

theorem opt_presence_witness :
    optDeserialize (some (.uint 5)) = .ok (some (Duration.fromSecs 5)) :=
  opt_presence.2.2.2.1 (.uint 5) (Duration.fromSecs 5) rfl

/-- Claim C1 as stated is false: sub-millisecond precision does not reach the secs
formatter rounded.  At `Duration(1s, 999_500_000ns)` the millis mode rounds
half-up to 2000 ms (two whole seconds), but the secs mode emits 1, the raw
truncated second count. -/
theorem formatter_rounding_cx :
    serialize_millis ⟨1, 999500000⟩ = .ok 2000 ∧
    serialize_secs ⟨1, 999500000⟩ = 1 ∧
    serialize_secs ⟨1, 999500000⟩ ≠ 2000 / 1000 := by
  decide

/-- Claim C1 amended: only the human and millis formatters round the duration to
the nearest whole millisecond (half-up) — the human output depends only on
the rounded total, which is exactly the millis output when it fits — while
the secs formatter truncates to whole seconds without rounding and the
secs_f64_ms formatter uses the truncated millisecond count `subsec_millis`,
not the rounded one. -/
theorem formatter_rounding (d : Duration) :
    to_human_string d = to_human_string (Duration.fromMillis (roundedMsTotal d)) ∧
    (roundedMsTotal d ≤ u64Max → serialize_millis d = .ok (roundedMsTotal d)) ∧
    (u64Max < roundedMsTotal d → serialize_millis d = .error "duration too large") ∧
    serialize_secs d = d.secs ∧
    serialize_secs_f64_ms d = ((d.secs * 1000 + d.nanos / 1000000 : Nat) : ℚ) / 1000 := by
  refine ⟨?_, fun h => ?_, fun h => ?_, rfl, ?_⟩
  · simp only [to_human_string, roundedMsTotal_fromMillis]
  · simp only [serialize_millis]
    rw [if_neg (by omega)]
  · simp only [serialize_millis]
    rw [if_pos h]
  · simp only [serialize_secs_f64_ms]
    have hmul : ((d.secs : ℚ) + ((d.nanos / 1000000 : Nat) : ℚ) / 1000) * 1000 =
        ((d.secs * 1000 + d.nanos / 1000000 : Nat) : ℚ) := by
      push_cast
      ring
    rw [hmul, round_natCast, Int.cast_natCast]

theorem formatter_rounding_witness :
    serialize_millis ⟨1, 999500000⟩ = .ok (roundedMsTotal ⟨1, 999500000⟩) :=
  (formatter_rounding ⟨1, 999500000⟩).2.1 (by decide)

/-- Claim C5: the millis-mode serializer outputs the total duration rounded to the
nearest whole millisecond with round-half-up on the sub-millisecond
nanosecond remainder (`(total_ns + 500000) / 10^6`, which is Mathlib's
half-up `round` of `total_ns / 10^6`), carrying across the second boundary
(`Duration(1s, 999_500_000ns)` serializes as 2000), and it errors exactly
when the rounded millisecond total exceeds `u64::MAX`. -/
theorem millis_mode_rounds_half_up (d : Duration) :
    serialize_millis d =
      (if u64Max < (d.secs * 1000000000 + d.nanos + 500000) / 1000000
        then .error "duration too large"
        else .ok ((d.secs * 1000000000 + d.nanos + 500000) / 1000000)) ∧
    (((d.secs * 1000000000 + d.nanos + 500000) / 1000000 : Nat) : Int) =
      round (((d.secs * 1000000000 + d.nanos : Nat) : ℚ) / 1000000) ∧
    serialize_millis ⟨1, 999500000⟩ = .ok 2000 := by
  refine ⟨?_, ?_, by decide⟩
  · have hms : roundedMsTotal d = (d.secs * 1000000000 + d.nanos + 500000) / 1000000 := by
      unfold roundedMsTotal
      omega
    simp only [serialize_millis, hms]
  · rw [round_eq]
    have hsplit : ((d.secs * 1000000000 + d.nanos : Nat) : ℚ) / 1000000 + 1 / 2 =
        ((2 * (d.secs * 1000000000 + d.nanos : Nat) + 1000000 : Int) : ℚ) /
          ((1000000 * 2 : Nat) : ℚ) := by
      push_cast
      ring
    rw [hsplit, Rat.floor_intCast_div_natCast]
    have hnum : (2 * ((d.secs * 1000000000 + d.nanos : Nat) : Int) + 1000000) =
        ((2 * (d.secs * 1000000000 + d.nanos) + 1000000 : Nat) : Int) := by
      push_cast
      ring
    rw [hnum, ← Int.natCast_div]
    have : (2 * (d.secs * 1000000000 + d.nanos) + 1000000) / (1000000 * 2) =
        (d.secs * 1000000000 + d.nanos + 500000) / 1000000 := by
      omega
    rw [this]

/-- Claim C6: the human formatter renders zero as exactly `"0s"` and otherwise
greedily decomposes the ms-rounded total, largest unit first (the components
satisfy the greedy bounds and recompose to the total), emitting only the
non-zero components, joined by single spaces in the fixed order
d, h, m, s, ms. -/
theorem human_greedy (d : Duration) :
    (roundedMsTotal d = 0 → to_human_string d = "0s") ∧
    (roundedMsTotal d ≠ 0 → ∃ dd hh mm ss mms : Nat,
      roundedMsTotal d = dd * 86400000 + hh * 3600000 + mm * 60000 + ss * 1000 + mms ∧
      hh < 24 ∧ mm < 60 ∧ ss < 60 ∧ mms < 1000 ∧
      (∀ p ∈ humanToks dd hh mm ss mms, 0 < p.1) ∧
      humanToks dd hh mm ss mms ≠ [] ∧
      to_human_string d = String.mk (renderToks (humanToks dd hh mm ss mms))) := by
  constructor
  · intro h
    simp only [to_human_string, if_pos h]
  · intro h
    refine ⟨roundedMsTotal d / 86400000, roundedMsTotal d % 86400000 / 3600000,
      roundedMsTotal d % 86400000 % 3600000 / 60000,
      roundedMsTotal d % 86400000 % 3600000 % 60000 / 1000,
      roundedMsTotal d % 86400000 % 3600000 % 60000 % 1000,
      by omega, by omega, by omega, by omega, by omega,
      humanToks_pos _ _ _ _ _, ?_, to_human_string_eq d h⟩
    rw [Ne, humanToks_eq_nil_iff]
    omega

theorem human_greedy_witness : to_human_string ⟨0, 0⟩ = "0s" :=
  (human_greedy ⟨0, 0⟩).1 (by decide)

/-- Claim C3 as stated is false at the largest durations: `u64::MAX` seconds is
representable at millisecond resolution (zero sub-millisecond remainder),
but its millisecond total exceeds `u64::MAX`, so parsing its human rendering
fails the final overflow check instead of round-tripping. -/
theorem human_roundtrip_cx :
    (⟨u64Max, 0⟩ : Duration).nanos % 1000000 = 0 ∧
    parse_str (to_human_string ⟨u64Max, 0⟩) = .error "duration too large" := by
  constructor
  · decide
  · decide

/-- Claim C3 amended: for every duration at millisecond resolution whose rounded
millisecond total also fits `u64` (the range `Duration::from_millis` can
reproduce), parsing the human rendering returns exactly the original
duration. -/
theorem human_roundtrip (d : Duration) (h1 : d.nanos < 1000000000)
    (h2 : d.nanos % 1000000 = 0) (h3 : roundedMsTotal d ≤ u64Max) :
    parse_str (to_human_string d) = .ok d := by
  by_cases h0 : roundedMsTotal d = 0
  · have hd : d = ⟨0, 0⟩ := by
      obtain ⟨s, nn⟩ := d
      simp only [roundedMsTotal] at h0
      simp only [Duration.mk.injEq]
      constructor
      · omega
      · simp only at h2
        omega
    rw [hd]
    decide
  · rw [to_human_string_eq d h0]
    refine (parse_renderToks_ok_iff _ d).mpr ⟨?_, ?_, ?_⟩
    · rw [Ne, humanToks_eq_nil_iff]
      omega
    · rw [sumMs_humanToks]
      omega
    · rw [sumMs_humanToks]
      have hsum : roundedMsTotal d / 86400000 * 86400000 +
          roundedMsTotal d % 86400000 / 3600000 * 3600000 +
          roundedMsTotal d % 86400000 % 3600000 / 60000 * 60000 +
          roundedMsTotal d % 86400000 % 3600000 % 60000 / 1000 * 1000 +
          roundedMsTotal d % 86400000 % 3600000 % 60000 % 1000 = roundedMsTotal d := by
        omega
      rw [hsum]
      obtain ⟨s, nn⟩ := d
      simp only [roundedMsTotal] at *
      simp only [Duration.fromMillis, Duration.mk.injEq]
      constructor
      · omega
      · omega

/-- Claim C2 as stated is false about the offset: for `"12"` the offset right
after the number is 2, but the code passes `start_num` and reports
`"expected unit after number at position 0"` — the start of the digit run,
not the position after it. -/
theorem expected_unit_offset_cx :
    parse_str "12" = .error (expectedUnitMsg 0) ∧
    expectedUnitMsg 0 ≠ expectedUnitMsg 2 := by
  constructor
  · decide
  · decide

/-- Claim C2 amended: whenever a number (whose digit-run value fits `u128`, so the
number itself parses) is followed, after optional whitespace, by zero
alphabetic characters, the parser returns the ExpectedUnit error, and the
byte offset it names is the offset of the FIRST digit of the number
(`start_num`), not the offset right after the number. -/
theorem expected_unit_offset (s : String) (w ds w2 r : List Char)
    (hsplit : s.data = w ++ ds ++ w2 ++ r)
    (hw : ∀ c ∈ w, isWsB c = true)
    (hds : ds ≠ []) (hdig : ∀ c ∈ ds, c.isDigit = true)
    (hnum : natOfDigits ds ≤ u128Max)
    (hw2 : ∀ c ∈ w2, isWsB c = true)
    (hra : headNotP Char.isAlpha r) (hrw : headNotP isWsB r)
    (hrd : w2 = [] → headNotP Char.isDigit r) :
    parse_str s = .error (expectedUnitMsg w.length) := by
  unfold parse_str
  rw [hsplit, parseGo_no_unit w ds w2 r _ 0 0 0 hw hds hdig hw2 hra hrw hrd,
    if_neg (by omega)]
  simp [Except.map]

theorem expected_unit_offset_witness :
    parse_str "12" = .error (expectedUnitMsg ([] : List Char).length) :=
  expected_unit_offset "12" [] ['1', '2'] [] [] (by decide) (by decide) (by decide)
    (by decide) (by decide) (by decide) trivial trivial (fun _ => trivial)

/-- Claim C10 as stated is false for digit runs that overflow `u128`: the decimal
string for `2^128` consists only of ASCII digits, yet parsing fails with the
invalid-number error (the failed `u128` parse), not the expected-unit
error.  It is still never interpreted as seconds. -/
theorem bare_number_cx :
    parse_str "340282366920938463463374607431768211456" = .error (invalidNumberMsg 0) ∧
    invalidNumberMsg 0 ≠ expectedUnitMsg 0 := by
  constructor
  · decide
  · decide

/-- Claim C10 amended: a non-empty all-digit string (optionally surrounded by
whitespace) never parses as seconds: it fails with the expected-unit error
when the digit-run value fits `u128`, and with the invalid-number error
otherwise, both naming the offset of the first digit. -/
theorem bare_number_rejected (s : String) (w ds w2 : List Char)
    (hsplit : s.data = w ++ ds ++ w2)
    (hw : ∀ c ∈ w, isWsB c = true)
    (hds : ds ≠ []) (hdig : ∀ c ∈ ds, c.isDigit = true)
    (hw2 : ∀ c ∈ w2, isWsB c = true) :
    parse_str s = .error (if u128Max < natOfDigits ds
      then invalidNumberMsg w.length else expectedUnitMsg w.length) := by
  unfold parse_str
  have hsplit2 : s.data = w ++ ds ++ w2 ++ [] := by
    rw [hsplit, List.append_nil]
  rw [hsplit2, parseGo_no_unit w ds w2 [] _ 0 0 0 hw hds hdig hw2 trivial trivial
    (fun _ => trivial)]
  by_cases h : u128Max < natOfDigits ds
  · rw [if_pos h, if_pos h]
    simp [Except.map]
  · rw [if_neg h, if_neg h]
    simp [Except.map]

theorem bare_number_rejected_witness :
    parse_str "123" = .error (if u128Max < natOfDigits ['1', '2', '3']
      then invalidNumberMsg ([] : List Char).length
      else expectedUnitMsg ([] : List Char).length) :=
  bare_number_rejected "123" [] ['1', '2', '3'] [] (by decide) (by decide) (by decide)
    (by decide) (by decide)

/-- Claim C7: string parsing is order-independent and accumulating: rendering any
permutation of a successfully parsed token sequence parses to the same
duration; concretely `"30m 1h"` equals `"1h 30m"`, and repeated units sum,
`"1h 1h"` being two hours. -/
theorem token_order_irrelevant :
    (∀ ts ts' : List (Nat × TUnit), ts.Perm ts' → ∀ v : Duration,
      parse_str (String.mk (renderToks ts)) = .ok v →
      parse_str (String.mk (renderToks ts')) = .ok v) ∧
    parse_str "30m 1h" = parse_str "1h 30m" ∧
    parse_str "1h 1h" = .ok (Duration.fromSecs 7200) := by
  refine ⟨?_, by decide, by decide⟩
  intro ts ts' hperm v hok
  rw [parse_renderToks_ok_iff] at hok
  obtain ⟨h1, h2, h3⟩ := hok
  have hsum : sumMs ts' = sumMs ts := by
    unfold sumMs
    exact ((hperm.map fun t => t.1 * t.2.msVal).sum_eq).symm
  refine (parse_renderToks_ok_iff _ v).mpr ⟨?_, by omega, by rw [hsum]; exact h3⟩
  intro hnil
  rw [hnil] at hperm
  exact h1 hperm.eq_nil

theorem token_order_irrelevant_witness :
    parse_str (String.mk (renderToks [(1, TUnit.h), (30, TUnit.m)])) =
      .ok (Duration.fromMillis 5400000) :=
  token_order_irrelevant.1 [(30, TUnit.m), (1, TUnit.h)] [(1, TUnit.h), (30, TUnit.m)]
    (by decide) (Duration.fromMillis 5400000) (by decide)

theorem human_roundtrip_witness :
    parse_str (to_human_string ⟨3723, 250000000⟩) = .ok ⟨3723, 250000000⟩ :=
  human_roundtrip ⟨3723, 250000000⟩ (by decide) (by decide) (by decide)
